import Mathlib

/-!
Verification of the replay-buffer and training-loop logic of the
Q-learning cart-pole notebook
(`Additional/reinforcement/.ipynb_checkpoints/Q-learning-cart-checkpoint.ipynb`).

The notebook's `Memory` class wraps a `collections.deque` with a `maxlen`,
`add` appends an experience, and `sample` draws `batch_size` indices with
`np.random.choice(np.arange(len(buffer)), size=batch_size, replace=False)`.
Numeric values (states, rewards, losses) are modelled over `ℚ`; the random
draws made by `np.random` and the external TensorFlow network are modelled
as explicit inputs (index lists, chosen actions, prediction functions and
returned losses), so every definition is executable.
-/

namespace QCart

/-- Decidable equality for `Except`, used to evaluate loop runs on
concrete inputs. -/
instance {ε α : Type} [DecidableEq ε] [DecidableEq α] : DecidableEq (Except ε α)
  | .ok a, .ok b =>
    if h : a = b then .isTrue (by rw [h]) else .isFalse (by simp [h])
  | .ok _, .error _ => .isFalse (by simp)
  | .error _, .ok _ => .isFalse (by simp)
  | .error a, .error b =>
    if h : a = b then .isTrue (by rw [h]) else .isFalse (by simp [h])

/-- A stored experience `(state, action, reward, next_state)`. -/
structure Transition where
  state : List ℚ
  action : ℕ
  reward : ℚ
  next_state : List ℚ
deriving DecidableEq, Repr, Inhabited

/-- The `Memory` class: `self.buffer = deque(maxlen=max_size)`. -/
structure Memory (α : Type) where
  max_size : ℕ
  buffer : List α
deriving DecidableEq, Repr

/-- Constructor call `Memory(max_size=c)`: a fresh empty buffer of capacity `c`. -/
def Memory.mk0 (α : Type) (c : ℕ) : Memory α := ⟨c, []⟩

/-- Method `Memory.add`: `self.buffer.append(experience)` on a `deque(maxlen=max_size)`:
the experience goes to the tail and, if the deque was full, the head is
discarded. -/
def Memory.add {α : Type} (m : Memory α) (experience : α) : Memory α :=
  { m with buffer := (m.buffer ++ [experience]).drop (m.buffer.length + 1 - m.max_size) }

/-- The error `np.random.choice(..., replace=False)` raises when the requested
sample size exceeds the population size. -/
inductive SampleError
  | invalidArgument
deriving DecidableEq, Repr

/-- Method `Memory.sample`: `np.random.choice(np.arange(len(self.buffer)), size=batch_size,
replace=False)` followed by `[self.buffer[ii] for ii in idx]`.  The random index
draw is modelled by the explicit argument `idx`; `np.random.choice` raises before
drawing when `batch_size` exceeds the population, which is the `.error` branch. -/
def Memory.sample {α : Type} [Inhabited α] (m : Memory α) (batch_size : ℕ)
    (idx : List ℕ) : Except SampleError (List α) :=
  if batch_size ≤ m.buffer.length then
    .ok (idx.map fun i => m.buffer.getD i default)
  else
    .error .invalidArgument

/-- The contract `np.random.choice(np.arange(n), size=k, replace=False)`
guarantees for its output: `k` pairwise-distinct indices below `n`. -/
def validChoice (n k : ℕ) (idx : List ℕ) : Prop :=
  idx.length = k ∧ idx.Nodup ∧ ∀ i ∈ idx, i < n

instance {n k : ℕ} {idx : List ℕ} : Decidable (validChoice n k idx) := by
  unfold validChoice; infer_instance

/-- Iterated `Memory.add` over a list of experiences, oldest first. -/
def Memory.addAll {α : Type} (m : Memory α) (xs : List α) : Memory α :=
  xs.foldl Memory.add m

/-- Row-wise `np.max`: the greatest entry of a nonempty list
(`np.max` is never applied to an empty row in the notebook, the rows have
`action_size = 2` entries; the empty case is mapped to `0`). -/
def npMax (l : List ℚ) : ℚ :=
  match l with
  | [] => 0
  | x :: xs => xs.foldl max x

/-- The row-wise test `(next_states == np.zeros(states[0].shape)).all(axis=1)`
for a single row: `next_state` equals the all-zero vector of dimension `dim`. -/
def episode_ends (dim : ℕ) (next_state : List ℚ) : Bool :=
  decide (next_state = List.replicate dim 0)

/-- One row of `target_Qs` after `target_Qs[episode_ends] = (0, 0)`: the row
predicted by the network for `next_state`, replaced by the zero pair when the
sentinel test fires.  `q` is the external network's prediction. -/
def targetQsRow (dim : ℕ) (q : List ℚ → List ℚ) (next_state : List ℚ) : List ℚ :=
  if episode_ends dim next_state then [0, 0] else q next_state

/-- One entry of `targets = rewards + gamma * np.max(target_Qs, axis=1)`. -/
def target (gamma : ℚ) (dim : ℕ) (q : List ℚ → List ℚ)
    (reward : ℚ) (next_state : List ℚ) : ℚ :=
  reward + gamma * npMax (targetQsRow dim q next_state)

/-- The exploration probability computed each step:
`explore_p = explore_stop + (explore_start - explore_stop) * np.exp(-decay_rate * step)`.
It is a pure function of the global step counter and the three configured
constants. -/
noncomputable def explore_p (explore_start explore_stop decay_rate : ℝ)
    (step : ℕ) : ℝ :=
  explore_stop + (explore_start - explore_stop) * Real.exp (-decay_rate * step)

/-- Configured constant `train_episodes = 1000`. -/
def train_episodes : ℕ := 1000

/-- Configured constant `max_steps = 200`. -/
def max_steps : ℕ := 200

/-- Configured constant `gamma = 0.99`. -/
def gamma : ℚ := 0.99

/-- Configured constant `memory_size = 10000`. -/
def memory_size : ℕ := 10000

/-- Configured constant `batch_size = 20`. -/
def batch_size : ℕ := 20

/-- Configured constant `pretrain_length = batch_size`. -/
def pretrain_length : ℕ := batch_size

/-- Python `range(a, b)`: the integers from `a` up to but excluding `b`. -/
def pythonRange (a b : ℕ) : List ℕ := List.range' a (b - a)

/-- The external inputs consumed by one iteration of the training loop's
inner `while` body: the chosen action, the environment's `(next_state,
reward, done)` answer, the state obtained from `env.reset()` plus one random
step (used only when `done`), the indices drawn by `np.random.choice` inside
`memory.sample`, the network's prediction function `q` at this iteration, and
the loss value the `sess.run` update returns. -/
structure StepInput where
  action : ℕ
  env_next : List ℚ
  reward : ℚ
  done : Bool
  reset_state : List ℚ
  sample_idx : List ℕ
  q : List ℚ → List ℚ
  net_loss : ℚ

/-- Fatal conditions the training loop can hit: reading the Python variable
`loss` before its first assignment (a `NameError`), and `memory.sample`
raising because the buffer holds fewer than `batch_size` transitions. -/
inductive RunError
  | nameErrorLoss
  | sampleError
deriving DecidableEq, Repr

/-- The mutable variables of the training cell that survive across
iterations: the global `step` counter, the current `state`, the Python
variable `loss` (unbound until the first update, hence `Option`), the
episode log `rewards_list`, and the replay `memory`.  `episodes_run`,
`printed_losses` and `last_targets` are ghost fields recording which episode
indices the outer `for` visited, which loss values the episode-end `print`
displayed, and the `targets` array computed by the latest iteration. -/
structure LoopState where
  step : ℕ
  state : List ℚ
  loss : Option ℚ
  rewards_list : List (ℕ × ℚ)
  memory : Memory Transition
  episodes_run : List ℕ
  printed_losses : List ℚ
  last_targets : List ℚ
deriving DecidableEq, Repr

/-- The tail of every training iteration: `batch = memory.sample(batch_size)`
(fatal if the buffer is too small), the extraction of `states`, `rewards`,
`next_states`, the computation of `targets` (using the batch's first state's
dimension for the zero test, as `np.zeros(states[0].shape)` does), and the
`sess.run` update, which rebinds `loss`. -/
def sampleAndTrain (gamma' : ℚ) (bs : ℕ) (inp : StepInput) (t : ℕ)
    (total_reward : ℚ) (s : LoopState) : Except RunError (ℕ × ℚ × LoopState) :=
  match s.memory.sample bs inp.sample_idx with
  | .error _ => .error .sampleError
  | .ok batch =>
    let targets := batch.map fun e =>
      target gamma' (batch.headD default).state.length inp.q e.reward e.next_state
    .ok (t, total_reward,
      { s with last_targets := targets, loss := some inp.net_loss })

/-- One iteration of the inner `while t < max_steps` body, in source order:
increment `step`, act, read the environment's answer, accumulate the reward;
on `done` replace `next_state` by `np.zeros(state.shape)`, set `t` to
`max_steps`, print (reading `loss` — a `NameError` if no update has run yet),
append `(ep, total_reward)` to `rewards_list`, add the experience and restart
the environment; otherwise add the experience and advance; finally sample a
mini-batch and run the network update. -/
def trainStep (gamma' : ℚ) (bs ms ep : ℕ) (inp : StepInput)
    (t : ℕ) (total_reward : ℚ) (s : LoopState) :
    Except RunError (ℕ × ℚ × LoopState) :=
  let stepc := s.step + 1
  let tr := total_reward + inp.reward
  if inp.done then
    match s.loss with
    | none => .error .nameErrorLoss
    | some printed =>
      sampleAndTrain gamma' bs inp ms tr
        { s with
            step := stepc
            printed_losses := s.printed_losses ++ [printed]
            rewards_list := s.rewards_list ++ [(ep, tr)]
            memory := s.memory.add
              ⟨s.state, inp.action, inp.reward, List.replicate s.state.length 0⟩
            state := inp.reset_state }
  else
    sampleAndTrain gamma' bs inp (t + 1) tr
      { s with
          step := stepc
          memory := s.memory.add ⟨s.state, inp.action, inp.reward, inp.env_next⟩
          state := inp.env_next }

/-- The inner `while t < max_steps` loop, consuming one `StepInput` per
iteration (the available trace may end first, in which case the remaining
iterations are not modelled). -/
def runEpisodeAux (gamma' : ℚ) (bs ms ep : ℕ) :
    List StepInput → ℕ → ℚ → LoopState → Except RunError LoopState
  | [], _, _, s => .ok s
  | inp :: rest, t, total_reward, s =>
    if t < ms then
      match trainStep gamma' bs ms ep inp t total_reward s with
      | .error e => .error e
      | .ok (t', tr', s') => runEpisodeAux gamma' bs ms ep rest t' tr' s'
    else .ok s

/-- One episode of the outer `for` loop: `total_reward = 0`, `t = 0`, then
the inner `while`.  The ghost field `episodes_run` records the visit. -/
def runEpisode (gamma' : ℚ) (bs ms ep : ℕ) (inputs : List StepInput)
    (s : LoopState) : Except RunError LoopState :=
  runEpisodeAux gamma' bs ms ep inputs 0 0
    { s with episodes_run := s.episodes_run ++ [ep] }

/-- The training cell's outer loop `for ep in range(1, train_episodes)`,
threading the state through the episodes; `trace ep` is the environment/
network activity available to episode `ep`. -/
def runTraining (gamma' : ℚ) (bs ms m : ℕ) (trace : ℕ → List StepInput)
    (s : LoopState) : Except RunError LoopState :=
  (pythonRange 1 m).foldlM
    (fun acc ep => runEpisode gamma' bs ms ep (trace ep) acc) s

/-- The external inputs consumed by one iteration of the pretraining loop:
the random action, the environment's `(next_state, reward, done)` answer and
the state obtained from `env.reset()` plus one random step. -/
structure PreInput where
  action : ℕ
  env_next : List ℚ
  reward : ℚ
  done : Bool
  reset_state : List ℚ
deriving DecidableEq, Repr, Inhabited

/-- One iteration of the pretraining loop: on `done` store the experience
with `next_state = np.zeros(state.shape)` and restart the environment, else
store the experience as reported and advance the state. -/
def pretrainStep (inp : PreInput) (state : List ℚ) (memory : Memory Transition) :
    List ℚ × Memory Transition :=
  if inp.done then
    (inp.reset_state,
      memory.add ⟨state, inp.action, inp.reward, List.replicate state.length 0⟩)
  else
    (inp.env_next,
      memory.add ⟨state, inp.action, inp.reward, inp.env_next⟩)

/-- The pretraining loop `for ii in range(pretrain_length)`: one
`pretrainStep` per input. -/
def pretrainLoop : List PreInput → List ℚ → Memory Transition →
    List ℚ × Memory Transition
  | [], state, memory => (state, memory)
  | inp :: rest, state, memory =>
    let p := pretrainStep inp state memory
    pretrainLoop rest p.1 p.2

/-- The training cell's starting state: `step = 0`, the state left by the
pretraining cell (a concrete 4-vector here), `loss` unbound, an empty
episode log and a replay memory of the configured capacity. -/
def initS : LoopState :=
  { step := 0, state := [0, 0, 0, 0], loss := none, rewards_list := []
    memory := Memory.mk0 Transition memory_size
    episodes_run := [], printed_losses := [], last_targets := [] }

/-- A concrete non-terminal step answer used to evaluate the model: the
environment reports `done = false`, and `memory.sample` draws the first
`batch_size` indices. -/
def cInput : StepInput :=
  { action := 0, env_next := [1, 0, 0, 0], reward := 0, done := false
    reset_state := [0, 0, 0, 0], sample_idx := List.range batch_size
    q := fun _ => [0, 0], net_loss := 0 }

/-- A replay memory holding `batch_size` transitions at the configured
capacity, as the pretraining cell leaves it. -/
def cMem : Memory Transition := ⟨memory_size, List.replicate batch_size default⟩

/-- State `initS` after pretraining filled the memory with `batch_size`
transitions. -/
def cState : LoopState := { initS with memory := cMem }

/-- A concrete terminal step answer (`done = true`) with all numeric values
zero and an empty index draw, used to evaluate one `trainStep`. -/
def dInput : StepInput :=
  { action := 0, env_next := [], reward := 0, done := true
    reset_state := [], sample_idx := [], q := fun _ => [], net_loss := 0 }

/-- A state whose `loss` has already been assigned (`some 0`) and whose
memory has capacity `0`, so one `trainStep` on it is fully computable. -/
def dState : LoopState :=
  { step := 0, state := [], loss := some 0, rewards_list := []
    memory := ⟨0, []⟩
    episodes_run := [], printed_losses := [], last_targets := [] }

/-- The state produced by `trainStep` on `dState` with `dInput` (episode 1,
`t = 0`, `total_reward = 0`, `ms = 200`). -/
def dOut : LoopState :=
  { step := 1, state := [], loss := some 0, rewards_list := [(1, 0 + 0)]
    memory := ⟨0, []⟩
    episodes_run := [], printed_losses := [0], last_targets := [] }

theorem Memory.add_buffer {α : Type} (m : Memory α) (x : α) :
    (m.add x).buffer = (m.buffer ++ [x]).drop (m.buffer.length + 1 - m.max_size) := rfl

theorem Memory.add_length {α : Type} (m : Memory α) (x : α) :
    (m.add x).buffer.length = min (m.buffer.length + 1) m.max_size := by
  simp [Memory.add]
  omega

theorem Memory.add_max_size {α : Type} (m : Memory α) (x : α) :
    (m.add x).max_size = m.max_size := rfl

theorem Memory.add_length_le {α : Type} (m : Memory α) (x : α) :
    (m.add x).buffer.length ≤ m.max_size := by
  rw [Memory.add_length]; omega

/-- The buffer after a sequence of `add`s holds the suffix of the pushed
elements that fits in the capacity. -/
theorem Memory.addAll_buffer {α : Type} (xs : List α) (m : Memory α)
    (h : m.buffer.length ≤ m.max_size) :
    (m.addAll xs).buffer =
      (m.buffer ++ xs).drop (m.buffer.length + xs.length - m.max_size) := by
  induction xs generalizing m with
  | nil =>
    simp only [Memory.addAll, List.foldl_nil, List.length_nil, List.append_nil]
    have : m.buffer.length + 0 - m.max_size = 0 := by omega
    rw [this, List.drop_zero]
  | cons x xs ih =>
    have hadd : (m.add x).buffer.length ≤ (m.add x).max_size := Memory.add_length_le m x
    have hrec := ih (m.add x) hadd
    simp only [Memory.addAll, List.foldl_cons] at hrec ⊢
    rw [hrec, Memory.add_max_size, Memory.add_buffer,
      ← List.drop_append_of_le_length
        (by simp only [List.length_append, List.length_singleton]; omega),
      List.drop_drop, List.append_assoc, List.singleton_append]
    congr 1
    simp only [List.length_drop, List.length_append, List.length_singleton,
      List.length_cons, List.length_nil]
    omega

theorem Memory.addAll_length {α : Type} (xs : List α) (m : Memory α)
    (h : m.buffer.length ≤ m.max_size) :
    (m.addAll xs).buffer.length = min (m.buffer.length + xs.length) m.max_size := by
  rw [Memory.addAll_buffer xs m h]
  simp only [List.length_drop, List.length_append]
  omega

/-- C1: for every sequence of `add` calls on a `Memory` created with capacity
`C ≥ 1`, the buffer size never exceeds `C`, and after adding `C + n` items
(`n ≥ 1`) the buffer holds exactly the last `C` added items in insertion
order: eviction is strict FIFO and `add` always succeeds (it is total). -/
theorem memory_capacity_fifo {α : Type} (C : ℕ) (hC : 1 ≤ C) (xs : List α) :
    ((Memory.mk0 α C).addAll xs).buffer.length ≤ C
    ∧ (∀ n, 1 ≤ n → xs.length = C + n →
        ((Memory.mk0 α C).addAll xs).buffer = xs.drop n) := by
  have hbuf := Memory.addAll_buffer xs (Memory.mk0 α C) (by simp [Memory.mk0])
  simp only [Memory.mk0, List.nil_append, List.length_nil, Nat.zero_add] at hbuf
  constructor
  · rw [show ((Memory.mk0 α C).addAll xs).buffer = xs.drop (xs.length - C) from hbuf]
    rw [List.length_drop]
    omega
  · intro n hn hlen
    rw [show ((Memory.mk0 α C).addAll xs).buffer = xs.drop (xs.length - C) from hbuf]
    congr 1
    omega

/-- C1 witness: capacity 3, pushing five elements keeps the last three. -/
theorem memory_capacity_fifo_witness :
    ((Memory.mk0 ℕ 3).addAll [1, 2, 3, 4, 5]).buffer = [1, 2, 3, 4, 5].drop 2 :=
  (memory_capacity_fifo 3 (by decide) [1, 2, 3, 4, 5]).2 2 (by decide) (by decide)

theorem getD_mem_of_lt {α : Type} [Inhabited α] (l : List α) (i : ℕ)
    (h : i < l.length) : l.getD i default ∈ l := by
  rw [List.getD_eq_getElem?_getD, List.getElem?_eq_getElem h]
  exact List.getElem_mem h

theorem getD_eq_get_of_lt {α : Type} [Inhabited α] (l : List α) (i : ℕ)
    (h : i < l.length) : l.getD i default = l.get ⟨i, h⟩ := by
  rw [List.getD_eq_getElem?_getD, List.getElem?_eq_getElem h]
  rfl

/-- C2: with `k` distinct random indices below the population size (the
contract of `np.random.choice(..., replace=False)`), `sample k` returns
exactly `k` elements, distinct slots of the buffer, each a member of the
buffer at call time; with `k` larger than the current size it fails with
the invalid-argument error that `np.random.choice` raises. -/
theorem sample_spec {α : Type} [Inhabited α] (m : Memory α) (k : ℕ) (idx : List ℕ) :
    (validChoice m.buffer.length k idx →
      ∃ l, m.sample k idx = .ok l ∧ l.length = k ∧ (∀ x ∈ l, x ∈ m.buffer) ∧
        (m.buffer.Nodup → l.Nodup))
    ∧ (m.buffer.length < k → m.sample k idx = .error .invalidArgument) := by
  constructor
  · rintro ⟨hlen, hnd, hlt⟩
    have hk : k ≤ m.buffer.length := by
      classical
      have hsub : idx.toFinset ⊆ Finset.range m.buffer.length := by
        intro i hi
        rw [Finset.mem_range]
        exact hlt i (List.mem_toFinset.mp hi)
      have hcard := Finset.card_le_card hsub
      rw [List.toFinset_card_of_nodup hnd, Finset.card_range] at hcard
      omega
    refine ⟨idx.map fun i => m.buffer.getD i default, ?_, ?_, ?_, ?_⟩
    · simp [Memory.sample, hk]
    · simp [hlen]
    · intro x hx
      obtain ⟨i, hi, rfl⟩ := List.mem_map.mp hx
      exact getD_mem_of_lt _ _ (hlt i hi)
    · intro hbuf
      refine List.Nodup.map_on ?_ hnd
      intro i hi j hj hij
      have h1 : i < m.buffer.length := hlt i hi
      have h2 : j < m.buffer.length := hlt j hj
      rw [getD_eq_get_of_lt _ _ h1, getD_eq_get_of_lt _ _ h2] at hij
      have := (List.nodup_iff_injective_get.mp hbuf) hij
      exact congrArg Fin.val this
  · intro hk
    simp [Memory.sample, Nat.not_le.mpr hk]

/-- C2 witness: on the buffer `[10, 20, 30]`, `sample 2` with the drawn
indices `[2, 0]` returns two distinct stored elements, and `sample 4`
fails with the invalid-argument error. -/
theorem sample_spec_witness :
    (∃ l, (Memory.mk 5 [10, 20, 30] : Memory ℕ).sample 2 [2, 0] = .ok l ∧
      l.length = 2 ∧ (∀ x ∈ l, x ∈ (Memory.mk 5 [10, 20, 30] : Memory ℕ).buffer) ∧
      ((Memory.mk 5 [10, 20, 30] : Memory ℕ).buffer.Nodup → l.Nodup))
    ∧ (Memory.mk 5 [10, 20, 30] : Memory ℕ).sample 4 [] = .error .invalidArgument :=
  ⟨(sample_spec (Memory.mk 5 [10, 20, 30]) 2 [2, 0]).1 (by decide),
   (sample_spec (Memory.mk 5 [10, 20, 30]) 4 []).2 (by decide)⟩

/-- C3: for a sampled transition with reward `r`: if it is terminal (its
recorded `next_state` is the all-zero sentinel of the batch's state
dimension), the computed target is exactly `r`; otherwise the target is
exactly `r + gamma * v*` with `v*` the maximum predicted value over actions
for its `next_state`. -/
theorem target_spec (gamma : ℚ) (dim : ℕ) (q : List ℚ → List ℚ)
    (r : ℚ) (ns : List ℚ) :
    (ns = List.replicate dim 0 → target gamma dim q r ns = r)
    ∧ (ns ≠ List.replicate dim 0 →
        target gamma dim q r ns = r + gamma * npMax (q ns)) := by
  constructor
  · intro h
    simp [target, targetQsRow, episode_ends, h, npMax]
  · intro h
    simp [target, targetQsRow, episode_ends, h]

/-- C3 witness: with `gamma = 99/100` and a network predicting `[5, 7]`,
a terminal transition's target is its reward `1`, and a non-terminal one
with `next_state = [1, 0]` gets `1 + gamma * 7`. -/
theorem target_spec_witness :
    target (99/100) 2 (fun _ => [5, 7]) 1 (List.replicate 2 0) = 1
    ∧ target (99/100) 2 (fun _ => [5, 7]) 1 [1, 0] =
        1 + (99/100) * npMax ((fun _ => [5, 7]) [1, 0]) :=
  ⟨(target_spec (99/100) 2 (fun _ => [5, 7]) 1 (List.replicate 2 0)).1 rfl,
   (target_spec (99/100) 2 (fun _ => [5, 7]) 1 [1, 0]).2 (by decide)⟩

/-- C9: the training step decides terminality solely by the component-wise
zero test on the stored `next_state` (the `target` computation receives no
other terminality information), so any sampled transition whose `next_state`
equals the zero vector gets the target `r`, and whenever the network's
prediction at the zero vector would contribute (`gamma * v* ≠ 0`) this
differs from the bootstrapped value `r + gamma * v*`. -/
theorem zero_state_aliasing (gamma : ℚ) (dim : ℕ) (q : List ℚ → List ℚ) (r : ℚ) :
    target gamma dim q r (List.replicate dim 0) = r
    ∧ (gamma * npMax (q (List.replicate dim 0)) ≠ 0 →
        target gamma dim q r (List.replicate dim 0) ≠
          r + gamma * npMax (q (List.replicate dim 0))) := by
  have hterm : target gamma dim q r (List.replicate dim 0) = r := by
    simp [target, targetQsRow, episode_ends, npMax]
  refine ⟨hterm, fun h heq => h ?_⟩
  rw [hterm] at heq
  linarith [heq]

/-- C9 witness: a genuinely reached zero state with a network predicting
value `1` there gets target `0`, not `0 + 1 * 1`. -/
theorem zero_state_aliasing_witness :
    target 1 1 (fun _ => [1]) 0 (List.replicate 1 0) = 0
    ∧ target 1 1 (fun _ => [1]) 0 (List.replicate 1 0) ≠
        0 + 1 * npMax ((fun _ => [1]) (List.replicate 1 0)) :=
  ⟨(zero_state_aliasing 1 1 (fun _ => [1]) 0).1,
   (zero_state_aliasing 1 1 (fun _ => [1]) 0).2 (by simp [npMax])⟩

/-- C4: with `decay_rate ≥ 0` and `p_min ≤ p_max`, the schedule is
non-increasing in the step counter, stays inside `[p_min, p_max]`, and
starts at `p_max` for step `0`. -/
theorem explore_p_spec (pmax pmin d : ℝ) (hd : 0 ≤ d) (hpp : pmin ≤ pmax) :
    (∀ s1 s2 : ℕ, s1 < s2 → explore_p pmax pmin d s2 ≤ explore_p pmax pmin d s1)
    ∧ (∀ s : ℕ, pmin ≤ explore_p pmax pmin d s ∧ explore_p pmax pmin d s ≤ pmax)
    ∧ explore_p pmax pmin d 0 = pmax := by
  have hexp_le_one : ∀ s : ℕ, Real.exp (-d * s) ≤ 1 := by
    intro s
    apply Real.exp_le_one_iff.mpr
    have : (0 : ℝ) ≤ d * s := mul_nonneg hd (Nat.cast_nonneg s)
    linarith
  refine ⟨?_, ?_, ?_⟩
  · intro s1 s2 h
    unfold explore_p
    have hmono : Real.exp (-d * s2) ≤ Real.exp (-d * s1) := by
      apply Real.exp_le_exp.mpr
      have : d * s1 ≤ d * s2 :=
        mul_le_mul_of_nonneg_left (Nat.cast_le.mpr h.le) hd
      linarith
    nlinarith [hmono, sub_nonneg.mpr hpp]
  · intro s
    unfold explore_p
    constructor
    · nlinarith [(Real.exp_pos (-d * s)).le, sub_nonneg.mpr hpp]
    · nlinarith [hexp_le_one s, sub_nonneg.mpr hpp, (Real.exp_pos (-d * s)).le]
  · unfold explore_p
    simp [Real.exp_zero]

/-- C4 witness: with `p_max = 1`, `p_min = 0`, `decay_rate = 0`, the schedule
value at step `1` does not exceed the value at step `0`, and step `0`
evaluates to `p_max = 1`. -/
theorem explore_p_spec_witness :
    explore_p 1 0 0 1 ≤ explore_p 1 0 0 0 ∧ explore_p 1 0 0 0 = 1 :=
  ⟨(explore_p_spec 1 0 0 le_rfl zero_le_one).1 0 1 (by decide),
   (explore_p_spec 1 0 0 le_rfl zero_le_one).2.2⟩

theorem sampleAndTrain_ok {g : ℚ} {bs : ℕ} {inp : StepInput} {t : ℕ} {tr : ℚ}
    {s : LoopState} {t' : ℕ} {tr' : ℚ} {s' : LoopState}
    (h : sampleAndTrain g bs inp t tr s = .ok (t', tr', s')) :
    t' = t ∧ tr' = tr ∧ s'.step = s.step ∧ s'.state = s.state ∧
    s'.loss = some inp.net_loss ∧ s'.rewards_list = s.rewards_list ∧
    s'.memory = s.memory ∧ s'.episodes_run = s.episodes_run ∧
    s'.printed_losses = s.printed_losses := by
  unfold sampleAndTrain at h
  cases hs : s.memory.sample bs inp.sample_idx with
  | error e =>
    rw [hs] at h
    exact absurd h (by simp)
  | ok batch =>
    rw [hs] at h
    simp only [Except.ok.injEq, Prod.mk.injEq] at h
    obtain ⟨ht, htr, hs'⟩ := h
    subst ht
    subst htr
    subst hs'
    exact ⟨rfl, rfl, rfl, rfl, rfl, rfl, rfl, rfl, rfl⟩

theorem sampleAndTrain_exists_ok (g : ℚ) (bs : ℕ) (inp : StepInput) (t : ℕ)
    (tr : ℚ) (s : LoopState) (h : bs ≤ s.memory.buffer.length) :
    ∃ s', sampleAndTrain g bs inp t tr s = .ok (t, tr, s') := by
  unfold sampleAndTrain Memory.sample
  rw [if_pos h]
  exact ⟨_, rfl⟩

theorem trainStep_ok {g : ℚ} {bs ms ep : ℕ} {inp : StepInput} {t : ℕ} {tr : ℚ}
    {s : LoopState} {t' : ℕ} {tr' : ℚ} {s' : LoopState}
    (h : trainStep g bs ms ep inp t tr s = .ok (t', tr', s')) :
    s'.loss = some inp.net_loss ∧ s'.episodes_run = s.episodes_run ∧
    (inp.done = true →
      t' = ms ∧
      s'.rewards_list = s.rewards_list ++ [(ep, tr + inp.reward)] ∧
      s'.memory = s.memory.add
        ⟨s.state, inp.action, inp.reward, List.replicate s.state.length 0⟩ ∧
      ∃ L, s.loss = some L ∧ s'.printed_losses = s.printed_losses ++ [L]) ∧
    (inp.done = false →
      t' = t + 1 ∧
      s'.rewards_list = s.rewards_list ∧
      s'.memory = s.memory.add ⟨s.state, inp.action, inp.reward, inp.env_next⟩ ∧
      s'.printed_losses = s.printed_losses) := by
  unfold trainStep at h
  cases hdone : inp.done with
  | false =>
    rw [hdone] at h
    simp only [Bool.false_eq_true, if_false] at h
    have hf := sampleAndTrain_ok h
    refine ⟨hf.2.2.2.2.1, hf.2.2.2.2.2.2.2.1, by simp, fun _ => ?_⟩
    exact ⟨hf.1, hf.2.2.2.2.2.1, hf.2.2.2.2.2.2.1, hf.2.2.2.2.2.2.2.2⟩
  | true =>
    rw [hdone] at h
    simp only [if_true] at h
    cases hl : s.loss with
    | none =>
      rw [hl] at h
      exact absurd h (by simp)
    | some L =>
      rw [hl] at h
      have hf := sampleAndTrain_ok h
      refine ⟨hf.2.2.2.2.1, hf.2.2.2.2.2.2.2.1, fun _ => ?_, by simp⟩
      exact ⟨hf.1, hf.2.2.2.2.2.1, hf.2.2.2.2.2.2.1, L, rfl,
        hf.2.2.2.2.2.2.2.2⟩

theorem trainStep_done_loss_none {g : ℚ} {bs ms ep : ℕ} {inp : StepInput}
    {t : ℕ} {tr : ℚ} {s : LoopState} (hdone : inp.done = true)
    (hl : s.loss = none) :
    trainStep g bs ms ep inp t tr s = .error .nameErrorLoss := by
  unfold trainStep
  rw [hdone, hl]
  rfl

theorem trainStep_not_done_ok (g : ℚ) (bs ms ep : ℕ) (inp : StepInput)
    (t : ℕ) (tr : ℚ) (s : LoopState) (hdone : inp.done = false)
    (hlen : bs ≤ s.memory.buffer.length) (hcap : bs ≤ s.memory.max_size) :
    ∃ s', trainStep g bs ms ep inp t tr s = .ok (t + 1, tr + inp.reward, s') ∧
      s'.rewards_list = s.rewards_list ∧
      bs ≤ s'.memory.buffer.length ∧ s'.memory.max_size = s.memory.max_size := by
  have hlen' : bs ≤ (s.memory.add
      ⟨s.state, inp.action, inp.reward, inp.env_next⟩).buffer.length := by
    rw [Memory.add_length]
    omega
  obtain ⟨s', hs'⟩ := sampleAndTrain_exists_ok g bs inp (t + 1) (tr + inp.reward)
    { s with
        step := s.step + 1
        memory := s.memory.add ⟨s.state, inp.action, inp.reward, inp.env_next⟩
        state := inp.env_next } hlen'
  have hstep : trainStep g bs ms ep inp t tr s = .ok (t + 1, tr + inp.reward, s') := by
    unfold trainStep
    rw [hdone]
    simp only [Bool.false_eq_true, if_false]
    exact hs'
  have hf := sampleAndTrain_ok hs'
  refine ⟨s', hstep, ?_, ?_, ?_⟩
  · rw [hf.2.2.2.2.2.1]
  · rw [hf.2.2.2.2.2.2.1]
    exact hlen'
  · rw [hf.2.2.2.2.2.2.1]
    rfl

theorem runEpisodeAux_ok_episodes_run {g : ℚ} {bs ms ep : ℕ} :
    ∀ (inputs : List StepInput) (t : ℕ) (tr : ℚ) (s s' : LoopState),
      runEpisodeAux g bs ms ep inputs t tr s = .ok s' →
      s'.episodes_run = s.episodes_run := by
  intro inputs
  induction inputs with
  | nil =>
    intro t tr s s' h
    simp only [runEpisodeAux, Except.ok.injEq] at h
    rw [← h]
  | cons inp rest ih =>
    intro t tr s s' h
    simp only [runEpisodeAux] at h
    by_cases ht : t < ms
    · rw [if_pos ht] at h
      cases hstep : trainStep g bs ms ep inp t tr s with
      | error e => rw [hstep] at h; exact absurd h (by simp)
      | ok out =>
        rw [hstep] at h
        obtain ⟨t', tr', s1⟩ := out
        rw [ih t' tr' s1 s' h, (trainStep_ok hstep).2.1]
    · rw [if_neg ht] at h
      simp only [Except.ok.injEq] at h
      rw [← h]

theorem runEpisode_ok_episodes_run {g : ℚ} {bs ms ep : ℕ}
    {inputs : List StepInput} {s s' : LoopState}
    (h : runEpisode g bs ms ep inputs s = .ok s') :
    s'.episodes_run = s.episodes_run ++ [ep] :=
  runEpisodeAux_ok_episodes_run inputs 0 0 _ s' h

theorem foldl_episodes_run {g : ℚ} {bs ms : ℕ} {trace : ℕ → List StepInput} :
    ∀ (l : List ℕ) (s s' : LoopState),
      l.foldlM (fun acc ep => runEpisode g bs ms ep (trace ep) acc) s = .ok s' →
      s'.episodes_run = s.episodes_run ++ l := by
  intro l
  induction l with
  | nil =>
    intro s s' h
    simp only [List.foldlM_nil] at h
    cases h
    simp
  | cons ep rest ih =>
    intro s s' h
    rw [List.foldlM_cons] at h
    cases hep : runEpisode g bs ms ep (trace ep) s with
    | error e =>
      rw [hep] at h
      exact absurd h (by simp [Bind.bind, Except.bind])
    | ok s1 =>
      rw [hep] at h
      have hbind : (Except.ok s1 >>= fun s2 =>
          rest.foldlM (fun acc ep => runEpisode g bs ms ep (trace ep) acc) s2) =
          rest.foldlM (fun acc ep => runEpisode g bs ms ep (trace ep) acc) s1 := rfl
      rw [hbind] at h
      rw [ih s1 s' h, runEpisode_ok_episodes_run hep, List.append_assoc,
        List.singleton_append]

theorem runEpisode_empty {g : ℚ} {bs ms ep : ℕ} {s : LoopState} :
    runEpisode g bs ms ep [] s =
      .ok { s with episodes_run := s.episodes_run ++ [ep] } := rfl

theorem runTraining_empty_trace (g : ℚ) (bs ms m : ℕ) (s : LoopState) :
    runTraining g bs ms m (fun _ => []) s =
      .ok { s with episodes_run := s.episodes_run ++ pythonRange 1 m } := by
  unfold runTraining
  generalize pythonRange 1 m = l
  induction l generalizing s with
  | nil =>
    simp only [List.foldlM_nil, List.append_nil]
    rfl
  | cons ep rest ih =>
    rw [List.foldlM_cons, runEpisode_empty]
    have h1 : (Except.ok { s with episodes_run := s.episodes_run ++ [ep] } >>=
        fun s2 => rest.foldlM (fun acc e => runEpisode g bs ms e [] acc) s2) =
        rest.foldlM (fun acc e => runEpisode g bs ms e [] acc)
          { s with episodes_run := s.episodes_run ++ [ep] } := rfl
    rw [h1, ih]
    simp [List.append_assoc]

/-- C5 counterexample: with the configured `train_episodes = 1000`, the
outer loop `for ep in range(1, train_episodes)` executes 999 episodes, not
`train_episodes` of them (episode index 1000 is never run). -/
theorem episode_count_counterexample :
    (runTraining gamma batch_size max_steps train_episodes (fun _ => []) initS).toOption.map
        (fun s => s.episodes_run.length) = some 999
    ∧ (999 : ℕ) ≠ train_episodes := by
  constructor
  · rw [runTraining_empty_trace]
    simp only [Except.toOption, Option.map_some', Option.some.injEq]
    simp [initS, pythonRange, train_episodes]
  · decide

/-- C5 (amended): the outer loop ranges over the episode indices
`range(1, train_episodes)`, i.e. `1 .. M - 1`: whenever a run completes,
exactly `M - 1` episodes were executed, with indices exactly the integers
`e` with `1 ≤ e < M`. -/
theorem episodes_executed (g : ℚ) (bs ms M : ℕ) (trace : ℕ → List StepInput)
    (s0 s' : LoopState) (h : runTraining g bs ms M trace s0 = .ok s') :
    s'.episodes_run = s0.episodes_run ++ pythonRange 1 M
    ∧ (pythonRange 1 M).length = M - 1
    ∧ (1 ≤ M → ∀ e, e ∈ pythonRange 1 M ↔ 1 ≤ e ∧ e < M) := by
  refine ⟨foldl_episodes_run (pythonRange 1 M) s0 s' h, ?_, ?_⟩
  · simp [pythonRange]
  · intro hM e
    rw [pythonRange, List.mem_range'_1]
    omega

/-- C5 witness: a three-episode configuration with an empty trace executes
episodes `[1, 2]`. -/
theorem episodes_executed_witness :
    ({ initS with episodes_run := initS.episodes_run ++ pythonRange 1 3 } :
        LoopState).episodes_run = initS.episodes_run ++ pythonRange 1 3
    ∧ (pythonRange 1 3).length = 3 - 1 :=
  ⟨(episodes_executed gamma batch_size max_steps 3 (fun _ => []) initS
      { initS with episodes_run := initS.episodes_run ++ pythonRange 1 3 }
      (runTraining_empty_trace gamma batch_size max_steps 3 initS)).1,
   (episodes_executed gamma batch_size max_steps 3 (fun _ => []) initS
      { initS with episodes_run := initS.episodes_run ++ pythonRange 1 3 }
      (runTraining_empty_trace gamma batch_size max_steps 3 initS)).2.1⟩

theorem runEpisodeAux_no_done (g : ℚ) (bs ms ep : ℕ) :
    ∀ (inputs : List StepInput) (t : ℕ) (tr : ℚ) (s : LoopState),
      (∀ i ∈ inputs, i.done = false) →
      bs ≤ s.memory.buffer.length → bs ≤ s.memory.max_size →
      ∃ s', runEpisodeAux g bs ms ep inputs t tr s = .ok s' ∧
        s'.rewards_list = s.rewards_list := by
  intro inputs
  induction inputs with
  | nil =>
    intro t tr s _ _ _
    exact ⟨s, rfl, rfl⟩
  | cons inp rest ih =>
    intro t tr s hall hlen hcap
    by_cases ht : t < ms
    · obtain ⟨s1, hstep, hrew, hlen1, hcap1⟩ :=
        trainStep_not_done_ok g bs ms ep inp t tr s
          (hall inp (List.mem_cons_self inp rest)) hlen hcap
      obtain ⟨s', hrun, hrew'⟩ := ih (t + 1) (tr + inp.reward) s1
        (fun i hi => hall i (List.mem_cons_of_mem inp hi)) hlen1
        (hcap1 ▸ hcap)
      refine ⟨s', ?_, hrew'.trans hrew⟩
      simp only [runEpisodeAux]
      rw [if_pos ht, hstep]
      exact hrun
    · refine ⟨s, ?_, rfl⟩
      simp only [runEpisodeAux]
      rw [if_neg ht]

/-- C6 counterexample: a full episode of `max_steps` steps in which the
environment never reports `done` ends by `t` reaching `max_steps`, yet
nothing is appended to `rewards_list`: the pair `(episode, total_reward)`
is not recorded for episodes that end at the step limit. -/
theorem record_skip_counterexample :
    (runEpisode gamma batch_size max_steps 1 (List.replicate max_steps cInput)
        cState).toOption.map LoopState.rewards_list = some [] := by
  obtain ⟨s', hok, hrew⟩ := runEpisodeAux_no_done gamma batch_size
    max_steps 1 (List.replicate max_steps cInput) 0 0
    { cState with episodes_run := cState.episodes_run ++ [1] }
    (fun i hi => by rw [List.eq_of_mem_replicate hi]; rfl)
    (by simp [cState, cMem, initS, batch_size])
    (by simp [cState, cMem, initS, batch_size, memory_size])
  unfold runEpisode
  rw [hok]
  simp only [Except.toOption, Option.map_some', Option.some.injEq]
  rw [hrew]
  rfl

/-- C6 (amended): the driver records `(episode, total_reward)` exactly when
the step's `done` flag is set (and the episode then ends); an episode whose
inner loop never sees `done = true` — in particular one that ends because
`t` reached `max_steps` — appends nothing to `rewards_list`. -/
theorem rewards_recorded_only_on_done (g : ℚ) (bs ms ep : ℕ) (inp : StepInput)
    (t : ℕ) (tr : ℚ) (s : LoopState) :
    (∀ t' tr' s', trainStep g bs ms ep inp t tr s = .ok (t', tr', s') →
      s'.rewards_list =
        if inp.done then s.rewards_list ++ [(ep, tr + inp.reward)]
        else s.rewards_list)
    ∧ (∀ (inputs : List StepInput) (t0 : ℕ) (tr0 : ℚ) (s0 s1 : LoopState),
        (∀ i ∈ inputs, i.done = false) →
        runEpisodeAux g bs ms ep inputs t0 tr0 s0 = .ok s1 →
        s1.rewards_list = s0.rewards_list) := by
  constructor
  · intro t' tr' s' h
    have hf := trainStep_ok h
    cases hdone : inp.done with
    | true =>
      rw [if_pos rfl]
      exact (hf.2.2.1 hdone).2.1
    | false =>
      rw [if_neg (by simp)]
      exact (hf.2.2.2 hdone).2.1
  · intro inputs
    induction inputs with
    | nil =>
      intro t0 tr0 s0 s1 _ h
      simp only [runEpisodeAux, Except.ok.injEq] at h
      rw [← h]
    | cons inp0 rest ih =>
      intro t0 tr0 s0 s1 hall h
      simp only [runEpisodeAux] at h
      by_cases ht : t0 < ms
      · rw [if_pos ht] at h
        cases hstep : trainStep g bs ms ep inp0 t0 tr0 s0 with
        | error e => rw [hstep] at h; exact absurd h (by simp)
        | ok out =>
          rw [hstep] at h
          obtain ⟨t2, tr2, s2⟩ := out
          have hrew2 := (trainStep_ok hstep).2.2.2
            (hall inp0 (List.mem_cons_self inp0 rest))
          rw [ih t2 tr2 s2 s1 (fun i hi => hall i (List.mem_cons_of_mem inp0 hi)) h,
            hrew2.2.1]
      · rw [if_neg ht] at h
        simp only [Except.ok.injEq] at h
        rw [← h]

/-- C6 witness: on a concrete terminal step (`done = true`, `loss` bound)
the resulting state's episode log is the old log with `(1, total_reward)`
appended. -/
theorem rewards_recorded_only_on_done_witness :
    dOut.rewards_list =
      if dInput.done then dState.rewards_list ++ [(1, (0 : ℚ) + dInput.reward)]
      else dState.rewards_list :=
  (rewards_recorded_only_on_done gamma 0 200 1 dInput 0 0 dState).1 200 (0 + 0)
    dOut rfl

/-- C7: a transition appended while `done = true` carries the terminal
sentinel `np.zeros(state.shape)` as its `next_state`, whatever `next_state`
the environment actually returned — in the pretraining loop body and in the
training loop body alike. -/
theorem terminal_sentinel (inp : PreInput) (st : List ℚ) (mem : Memory Transition)
    (g : ℚ) (bs ms ep : ℕ) (tinp : StepInput) (t : ℕ) (tr : ℚ) (s : LoopState) :
    (inp.done = true →
      (pretrainStep inp st mem).2 =
        mem.add ⟨st, inp.action, inp.reward, List.replicate st.length 0⟩)
    ∧ (tinp.done = true →
        ∀ t' tr' s', trainStep g bs ms ep tinp t tr s = .ok (t', tr', s') →
          s'.memory = s.memory.add
            ⟨s.state, tinp.action, tinp.reward, List.replicate s.state.length 0⟩) := by
  constructor
  · intro h
    unfold pretrainStep
    rw [h]
    rfl
  · intro h t' tr' s' hstep
    exact ((trainStep_ok hstep).2.2.1 h).2.2.1

/-- C7 witness: concrete terminal appends in both loop bodies store the
zero vector of the state's dimension as `next_state`. -/
theorem terminal_sentinel_witness :
    (pretrainStep ⟨0, [7], 0, true, []⟩ [5] (Memory.mk0 Transition 3)).2 =
      (Memory.mk0 Transition 3).add ⟨[5], 0, 0, List.replicate 1 0⟩
    ∧ dOut.memory = dState.memory.add
        ⟨dState.state, dInput.action, dInput.reward,
          List.replicate dState.state.length 0⟩ :=
  ⟨(terminal_sentinel ⟨0, [7], 0, true, []⟩ [5] (Memory.mk0 Transition 3)
      gamma 0 200 1 dInput 0 0 dState).1 rfl,
   (terminal_sentinel ⟨0, [7], 0, true, []⟩ [5] (Memory.mk0 Transition 3)
      gamma 0 200 1 dInput 0 0 dState).2 rfl 200 (0 + 0) dOut rfl⟩

theorem pretrainStep_memory (inp : PreInput) (st : List ℚ)
    (m : Memory Transition) :
    (pretrainStep inp st m).2.max_size = m.max_size ∧
    (pretrainStep inp st m).2.buffer.length = min (m.buffer.length + 1) m.max_size := by
  unfold pretrainStep
  by_cases h : inp.done = true
  · rw [if_pos h]
    exact ⟨rfl, Memory.add_length m _⟩
  · rw [if_neg h]
    exact ⟨rfl, Memory.add_length m _⟩

theorem pretrainLoop_memory :
    ∀ (pre : List PreInput) (st : List ℚ) (m : Memory Transition),
      m.buffer.length ≤ m.max_size →
      (pretrainLoop pre st m).2.max_size = m.max_size ∧
      (pretrainLoop pre st m).2.buffer.length =
        min (m.buffer.length + pre.length) m.max_size := by
  intro pre
  induction pre with
  | nil =>
    intro st m h
    refine ⟨rfl, ?_⟩
    simp only [pretrainLoop, List.length_nil]
    omega
  | cons inp rest ih =>
    intro st m h
    have hstep := pretrainStep_memory inp st m
    have hle : (pretrainStep inp st m).2.buffer.length ≤
        (pretrainStep inp st m).2.max_size := by
      rw [hstep.1, hstep.2]; omega
    have hrec := ih (pretrainStep inp st m).1 (pretrainStep inp st m).2 hle
    simp only [pretrainLoop, List.length_cons]
    constructor
    · rw [hrec.1, hstep.1]
    · rw [hrec.2, hstep.1, hstep.2]
      omega

/-- C8: as configured (`pretrain_length = batch_size ≤ memory_size`), the
pretraining loop leaves exactly `batch_size` transitions in the buffer, and
any training step on a state whose buffer already holds at least
`batch_size` transitions at the configured capacity can never hit the
insufficient-population error of `memory.sample` — and it re-establishes the
same lower bound, so the error branch is unreachable throughout training. -/
theorem sample_never_underflows :
    (∀ (pre : List PreInput) (st : List ℚ),
      pre.length = pretrain_length →
      (pretrainLoop pre st (Memory.mk0 Transition memory_size)).2.buffer.length =
        batch_size)
    ∧ (∀ (ep : ℕ) (inp : StepInput) (t : ℕ) (tr : ℚ) (s : LoopState),
        batch_size ≤ s.memory.buffer.length →
        s.memory.max_size = memory_size →
        trainStep gamma batch_size max_steps ep inp t tr s ≠ .error .sampleError
        ∧ ∀ t' tr' s',
            trainStep gamma batch_size max_steps ep inp t tr s = .ok (t', tr', s') →
            batch_size ≤ s'.memory.buffer.length ∧
            s'.memory.max_size = memory_size) := by
  constructor
  · intro pre st hlen
    have h := pretrainLoop_memory pre st (Memory.mk0 Transition memory_size)
      (by simp [Memory.mk0])
    rw [h.2, hlen]
    simp only [Memory.mk0, List.length_nil]
    rw [pretrain_length]
    simp [batch_size, memory_size]
  · intro ep inp t tr s hlen hcap
    have hbs_cap : batch_size ≤ s.memory.max_size := by
      rw [hcap]; simp [batch_size, memory_size]
    constructor
    · intro hbad
      cases hdone : inp.done with
      | false =>
        obtain ⟨s', hok, _⟩ := trainStep_not_done_ok gamma batch_size
          max_steps ep inp t tr s hdone hlen hbs_cap
        rw [hok] at hbad
        exact absurd hbad (by simp)
      | true =>
        cases hl : s.loss with
        | none =>
          rw [trainStep_done_loss_none hdone hl] at hbad
          exact absurd hbad (by simp)
        | some L =>
          have hlen' : batch_size ≤ (s.memory.add
              ⟨s.state, inp.action, inp.reward,
                List.replicate s.state.length 0⟩).buffer.length := by
            rw [Memory.add_length]
            omega
          obtain ⟨s', hok⟩ := sampleAndTrain_exists_ok gamma batch_size
            inp max_steps (tr + inp.reward)
            { s with
                step := s.step + 1
                printed_losses := s.printed_losses ++ [L]
                rewards_list := s.rewards_list ++ [(ep, tr + inp.reward)]
                memory := s.memory.add
                  ⟨s.state, inp.action, inp.reward,
                    List.replicate s.state.length 0⟩
                state := inp.reset_state } hlen'
          have hstep : trainStep gamma batch_size max_steps ep inp t tr s =
              .ok (max_steps, tr + inp.reward, s') := by
            unfold trainStep
            rw [hdone, hl]
            exact hok
          rw [hstep] at hbad
          exact absurd hbad (by simp)
    · intro t' tr' s' hok
      have hf := trainStep_ok hok
      cases hdone : inp.done with
      | true =>
        have hmem := (hf.2.2.1 hdone).2.2.1
        rw [hmem, Memory.add_length, Memory.add_max_size]
        omega
      | false =>
        have hmem := (hf.2.2.2 hdone).2.2.1
        rw [hmem, Memory.add_length, Memory.add_max_size]
        omega

/-- C8 witness: a concrete pretraining run of `pretrain_length` steps fills
the buffer to exactly `batch_size`, and a concrete training step on such a
buffer does not raise the insufficient-population error. -/
theorem sample_never_underflows_witness :
    (pretrainLoop (List.replicate pretrain_length default) []
        (Memory.mk0 Transition memory_size)).2.buffer.length = batch_size
    ∧ trainStep gamma batch_size max_steps 1 cInput 0 0 cState ≠
        .error .sampleError :=
  ⟨(sample_never_underflows).1 (List.replicate pretrain_length default) []
      (by simp),
   ((sample_never_underflows).2 1 cInput 0 0 cState
      (by simp [cState, cMem, initS, batch_size]) rfl).1⟩

/-- C10: if the environment reports `done = true` on the very first step of
the first training episode, the episode-end `print` reads the variable
`loss` before any update has assigned it and the whole run aborts with the
undefined-variable (`NameError`) failure instead of recording the episode;
otherwise the loss printed at an episode end is the value assigned by the
last completed update step — the update performed after the episode ended
rebinds `loss` only once the `print` has already happened. -/
theorem loss_read_before_update (g : ℚ) (bs ms M : ℕ)
    (trace : ℕ → List StepInput) (inp0 : StepInput) (rest : List StepInput)
    (s0 : LoopState) :
    (2 ≤ M → trace 1 = inp0 :: rest → inp0.done = true → s0.loss = none →
      0 < ms → runTraining g bs ms M trace s0 = .error .nameErrorLoss)
    ∧ (∀ (inp : StepInput) (ep t : ℕ) (tr : ℚ) (s : LoopState) (L : ℚ),
        s.loss = some L → inp.done = true →
        ∀ t' tr' s', trainStep g bs ms ep inp t tr s = .ok (t', tr', s') →
          s'.printed_losses = s.printed_losses ++ [L] ∧
          s'.loss = some inp.net_loss) := by
  constructor
  · intro hM htrace hdone hloss hms
    have hrange : pythonRange 1 M = 1 :: List.range' 2 (M - 2) := by
      unfold pythonRange
      rw [show M - 1 = (M - 2) + 1 by omega, List.range'_succ]
    unfold runTraining
    rw [hrange, List.foldlM_cons]
    have hep : runEpisode g bs ms 1 (trace 1) s0 = .error .nameErrorLoss := by
      unfold runEpisode
      rw [htrace]
      simp only [runEpisodeAux]
      rw [if_pos hms,
        trainStep_done_loss_none hdone (by simpa using hloss)]
    rw [hep]
    rfl
  · intro inp ep t tr s L hl hdone t' tr' s' hok
    have hf := trainStep_ok hok
    obtain ⟨L2, hl2, hpr⟩ := (hf.2.2.1 hdone).2.2.2
    rw [hl] at hl2
    cases hl2
    exact ⟨hpr, hf.1⟩

/-- C10 witness: a run whose first episode's first step reports `done`
aborts with the `NameError`, and a concrete terminal step with `loss` bound
prints exactly the previously assigned loss and then rebinds `loss` to the
new update's value. -/
theorem loss_read_before_update_witness :
    runTraining gamma batch_size 200 2 (fun _ => [dInput]) initS =
      .error .nameErrorLoss
    ∧ (dOut.printed_losses = dState.printed_losses ++ [0] ∧
        dOut.loss = some dInput.net_loss) :=
  ⟨(loss_read_before_update gamma batch_size 200 2 (fun _ => [dInput]) dInput []
      initS).1 (by decide) rfl rfl rfl (by decide),
   (loss_read_before_update gamma 0 200 2 (fun _ => [dInput]) dInput []
      initS).2 dInput 1 0 0 dState 0 rfl rfl 200 (0 + 0) dOut rfl⟩

end QCart
